import Mathlib

/-!
Verification development for the `egad` scaffolding tool (`src/index.js`).

The development shallowly embeds the two core pipelines of the program:

* `download` (the Cache Manager, `src/index.js` lines 39-84): ensures a local
  working copy of a remote Git repository exists under a cache directory,
  with online/offline fallback semantics.  The filesystem is modelled as a
  function from paths (lists of characters) to optional entries (file or
  directory); the external `git` collaborator is modelled as a record of
  success predicates for `pull` and `clone`.

* `generate` (the Render-or-Copy engine, `src/index.js` lines 97-152): walks a
  source tree, pruning directories whose path ends with `.git`, skips files
  the binary classifier flags, renders files containing a Handlebars
  delimiter pair and copies other files verbatim, honouring an overwrite
  policy.  The per-file jobs are issued with `Promise.all` in the source;
  since each source file maps to its own destination path the jobs are
  modelled sequentially.

External collaborators (`lodash` `kebabCase`, the Handlebars renderer, the
`is-binary-path` classifier) are modelled where a claim depends on their
concrete behaviour and kept abstract (parameters) otherwise.
-/

namespace Egad

/-! ### ASCII character classes and the lodash kebab-case slug

`destPath = _.pipe(_.kebabCase, cachedir)` (src/index.js line 26).  The
following models lodash's `kebabCase` for ASCII input: the string is split
into words at non-alphanumeric characters, at lowercase-to-uppercase
transitions and at letter/digit transitions; words are lowercased and joined
with `-`.  (lodash's extra split of an uppercase run before a capitalized
word, e.g. `XMLHttp` to `XML`,`Http`, is not modelled; no claim depends on
it.) -/

def upperChars : List Char := "ABCDEFGHIJKLMNOPQRSTUVWXYZ".toList

def lowerChars : List Char := "abcdefghijklmnopqrstuvwxyz".toList

def digitChars : List Char := "0123456789".toList

def isUpperA (c : Char) : Bool := decide (c ∈ upperChars)

def isLowerA (c : Char) : Bool := decide (c ∈ lowerChars)

def isDigitA (c : Char) : Bool := decide (c ∈ digitChars)

def isAlnumA (c : Char) : Bool := isUpperA c || isLowerA c || isDigitA c

/-- ASCII lowercasing (what `String.prototype.toLowerCase` does on ASCII). -/
def toLowerA (c : Char) : Char :=
  if isUpperA c then Char.ofNat (c.toNat + 32) else c

/-- A word boundary between two adjacent alphanumeric characters: a
lowercase-to-uppercase transition or a letter/digit transition. -/
def wordBoundary (p c : Char) : Bool :=
  (isLowerA p && isUpperA c) ||
  ((isUpperA p || isLowerA p) && isDigitA c) ||
  (isDigitA p && (isUpperA c || isLowerA c))

/-- Split a character list into words: maximal runs of alphanumeric
characters, further split at `wordBoundary` transitions.  `cur` is the
current word accumulated in reverse. -/
def wordsAux (cur : List Char) : List Char → List (List Char)
  | [] => if cur.isEmpty then [] else [cur.reverse]
  | c :: rest =>
    if isAlnumA c then
      match cur with
      | [] => wordsAux [c] rest
      | p :: _ =>
        if wordBoundary p c then cur.reverse :: wordsAux [c] rest
        else wordsAux (c :: cur) rest
    else if cur.isEmpty then wordsAux [] rest
    else cur.reverse :: wordsAux [] rest

def wordsA (s : List Char) : List (List Char) := wordsAux [] s

/-- `Array.prototype.join('-')`: interleave a hyphen between words. -/
def joinHyphen : List (List Char) → List Char
  | [] => []
  | [w] => w
  | w :: ws => w ++ '-' :: joinHyphen ws

/-- Model of lodash `kebabCase` on ASCII input: lowercased words joined with
hyphens. -/
def kebabCase (s : List Char) : List Char :=
  joinHyphen ((wordsA s).map (fun w => w.map toLowerA))

/-! ### Cache paths

`src/index.js` lines 22-26: the cache directory is
`path.join(xdgCachedir, '.egad-templates')` and the default download target
is that directory joined with the kebab-case slug of the URL.  The
environment-resolved XDG cache directory is threaded as the `cacheRoot`
parameter. -/

abbrev Path := List Char

def cachedirP (cacheRoot : Path) : Path := cacheRoot ++ "/.egad-templates".toList

def destPath (cacheRoot : Path) (url : Path) : Path :=
  cachedirP cacheRoot ++ '/' :: kebabCase url

/-! ### Filesystem and git models for `download` -/

/-- A filesystem node: a plain file or a directory.  (File contents play no
role in the Cache Manager claims.) -/
inductive FsEntry where
  | file : FsEntry
  | dir : FsEntry
deriving DecidableEq

/-- Filesystem state for the Cache Manager: a map from paths to optional
entries. -/
def FS : Type := Path → Option FsEntry

/-- The `git` collaborator (`simple-git`): success predicates for
`pull(remote, branch, --rebase)` on a working copy and for
`clone(url, dest)`.  A pull rewrites the checkout's contents but leaves the
working-copy directory itself in place; the FS model tracks the cache
entries, so a successful pull is a no-op on `FS`. -/
structure Git where
  pullOk : Path → Path → Path → Bool
  cloneOk : Path → Path → Bool

/-- `mkdirp(p)`: fails when a plain file occupies `p`, otherwise ensures a
directory at `p`.  (Creation of missing ancestors is not tracked; no claim
concerns them.) -/
def mkdirpM (p : Path) (fs : FS) : Option FS :=
  match fs p with
  | some .file => none
  | _ => some (fun q => if q = p then some .dir else fs q)

/-- Is `q` strictly below directory `p`? -/
def isUnder (p q : Path) : Bool := List.isPrefixOf (p ++ ['/']) q

/-- `rimraf(p)`: recursively delete whatever is at `p`. -/
def rimrafM (p : Path) (fs : FS) : FS :=
  fun q => if q = p || isUnder p q then none else fs q

/-- Errors of the inner promise chain (src/index.js lines 48-63), all of
which are caught by the `.catch` handler at line 64:
`notADirectory` is the thrown `File exists at ...` error (line 51),
`statMissing` is `stat` rejecting on a missing path, `pullFailed` is a
failed `git pull`. -/
inductive InnerErr where
  | notADirectory : InnerErr
  | statMissing : InnerErr
  | pullFailed : InnerErr
deriving DecidableEq

/-- Errors `download` can actually reject with: the
`No cache of ... exists` error (line 66, the spec's `AcquisitionError`) and
a failed clone (line 74). -/
inductive DlErr where
  | noOfflineCache : DlErr
  | cloneFailed : DlErr
deriving DecidableEq

/-- Caller-supplied options for `download`; missing fields are filled with
the defaults of src/index.js lines 40-45 (lodash/fp `defaults` puts the
defaults object first and the data object last). -/
structure DlOpts where
  dest : Option Path := none
  offline : Option Bool := none
  remote : Option Path := none
  branch : Option Path := none

/-- The inner chain of `download` (lines 48-63): `stat` the target, require
a directory, then `git pull --rebase`.  Returns `none` on success. -/
def downloadInner (git : Git) (dest remote branch : Path) (fs : FS) : Option InnerErr :=
  match fs dest with
  | some .dir => if git.pullOk dest remote branch then none else some .pullFailed
  | some .file => some .notADirectory
  | none => some .statMissing

/-- The `.catch` fallback of `download` (lines 64-82): offline mode rejects
with the no-cache error; online mode `rimraf`s the target and clones. -/
def downloadFallback (git : Git) (url dest : Path) (offline : Bool) (fs : FS) :
    FS × Except DlErr Path :=
  if offline then (fs, .error .noOfflineCache)
  else
    let fs2 := rimrafM dest fs
    if git.cloneOk url dest then
      ((fun q => if q = dest then some .dir else fs2 q), .ok dest)
    else (fs2, .error .cloneFailed)

/-- The resolved download target: `opts.dest` or the Path Resolver's result
(src/index.js line 41). -/
def resolvedDest (cacheRoot : Path) (url : Path) (o : DlOpts) : Path :=
  o.dest.getD (destPath cacheRoot url)

/-- Model of `download` (src/index.js lines 39-84): resolve options, ensure
the cache root, inspect-and-pull, and on any inner failure run the fallback.
A `mkdirp` failure is also caught by the same `.catch`. -/
def download (cacheRoot : Path) (git : Git) (url : Path) (o : DlOpts) (fs : FS) :
    FS × Except DlErr Path :=
  let dest := resolvedDest cacheRoot url o
  let offline := o.offline.getD false
  let remote := o.remote.getD "origin".toList
  let branch := o.branch.getD "master".toList
  match mkdirpM (cachedirP cacheRoot) fs with
  | none => downloadFallback git url dest offline fs
  | some fs1 =>
    match downloadInner git dest remote branch fs1 with
    | none => (fs1, .ok dest)
    | some _ => downloadFallback git url dest offline fs1

/-! ### Template detection and the Handlebars collaborator

`src/index.js` line 124 tests file content against `/{{([^{}]+)}}/g`: a
double open brace, one or more non-brace characters, a double close brace,
anywhere in the string. -/

/-- Does a match of `{{[^{}]+}}` start at the head of `cs`?  After `{{`,
the maximal run of non-brace characters must be nonempty and be followed by
`}}` (a shorter run would be followed by a non-brace character, so only the
maximal run can precede `}}`). -/
def matchesHere (cs : List Char) : Bool :=
  match cs with
  | '{' :: '{' :: rest =>
    let s := rest.span (fun c => !(c = '{' || c = '}'))
    !s.1.isEmpty && s.2.take 2 = ['}', '}']
  | _ => false

/-- `/{{([^{}]+)}}/.test(str)`: some position of `cs` starts a match. -/
def hasTemplate : List Char → Bool
  | [] => false
  | c :: rest => matchesHere (c :: rest) || hasTemplate rest

/-- Handlebars data: an association list from expression names to
replacement strings. -/
def HbData : Type := List (List Char × List Char)

/-- Whitespace-trim an expression body (`{{ name }}` and `{{name}}` refer to
the same key in Handlebars). -/
def trimSpaces (s : List Char) : List Char :=
  ((s.dropWhile (· = ' ')).reverse.dropWhile (· = ' ')).reverse

def lookupData (d : HbData) (k : List Char) : List Char :=
  match d.find? (fun e => e.1 = k) with
  | some e => e.2
  | none => []

/-- Fuel-indexed renderer: replaces each `{{expr}}` occurrence with the data
value for the trimmed expression (missing keys render as the empty string,
Handlebars' default).  The fuel dominates the input length so recursion on a
strictly shorter remainder is structural. -/
def hbRenderAux (d : HbData) : Nat → List Char → List Char
  | 0, cs => cs
  | _ + 1, [] => []
  | n + 1, c :: rest =>
    if matchesHere (c :: rest) then
      match c :: rest with
      | _ :: _ :: rest' =>
        let s := rest'.span (fun c => !(c = '{' || c = '}'))
        lookupData d (trimSpaces s.1) ++ hbRenderAux d n (s.2.drop 2)
      | _ => []
    else c :: hbRenderAux d n rest

/-- Model of the Handlebars rendering collaborator
(`consolidate.handlebars.render`) for simple variable expressions.  HTML
escaping of substituted values is not modelled; no claim substitutes a value
containing HTML-significant characters. -/
def hbRender (cs : List Char) (d : HbData) : List Char :=
  hbRenderAux d cs.length cs

/-! ### The source tree and the walker

The `walker` package enumerates files under a root; `generate` installs
`filterDir(_.negate(_.endsWith('.git')))` (line 106), so a directory is
descended into only when its full path does not end with `.git` (the filter
is applied to every directory met, the root included). -/

mutual
inductive Tree where
  | file : List Char → List Char → Tree
  | dir : List Char → Forest → Tree
inductive Forest where
  | nil : Forest
  | cons : Tree → Forest → Forest
end

/-! On a real filesystem an entry name never contains a path separator;
trees whose names do are not images of a directory tree. -/

mutual
def wfT : Tree → Bool
  | .file n _ => !n.contains '/'
  | .dir n f => !n.contains '/' && wfF f
def wfF : Forest → Bool
  | .nil => true
  | .cons t f => wfT t && wfF f
end

def gitSuffix : List Char := ".git".toList

/-! `walkT A t` walks a tree rooted below directory path `A`, emitting
(absolute path, content) pairs for files and pruning any directory whose
full path ends with `.git`. -/

mutual
def walkT (A : Path) : Tree → List (Path × List Char)
  | .file n c => [(A ++ '/' :: n, c)]
  | .dir n f =>
    let p := A ++ '/' :: n
    if gitSuffix.isSuffixOf p then [] else walkF p f
def walkF (A : Path) : Forest → List (Path × List Char)
  | .nil => []
  | .cons t f => walkT A t ++ walkF A f
end

/-- `Walker(source)`: the root directory itself is also subject to the
directory filter. -/
def walkRoot (src : Path) (f : Forest) : List (Path × List Char) :=
  if gitSuffix.isSuffixOf src then [] else walkF src f

/-! ### The destination filesystem and `generate` -/

/-- Destination filesystem state: file contents and directory existence per
path. -/
structure DFS where
  files : Path → Option (List Char)
  dirs : Path → Bool

/-- `mkdirp(p)` on the destination side.  (Ancestor creation and the
file/directory conflict failure are not tracked; no claim concerns them.) -/
def mkdirpD (p : Path) (fs : DFS) : DFS :=
  { fs with dirs := fun q => if q = p then true else fs.dirs q }

/-- `path.dirname`: everything before the final separator. -/
def dirnameP (p : Path) : Path :=
  match p.reverse.dropWhile (· ≠ '/') with
  | [] => ['.']
  | [_] => ['/']
  | _ :: rest => rest.reverse

/-- The external collaborators `generate` consults per file: the
`is-binary-path` extension classifier and the rendering engine. -/
structure Collab where
  isBinary : Path → Bool
  render : List Char → HbData → List Char

/-- Options for `generate`; a missing `overwrite` defaults to `true`
(src/index.js lines 98-100). -/
structure GenOpts where
  overwrite : Option Bool := none

/-- `path.join(dest, path.relative(source, sourceFilepath))` for the
root-prefixed absolute paths the walker produces: drop the source prefix
(leaving `/relpath`) and append it to `dest`. -/
def destOf (src dest : Path) (e : Path × List Char) : Path :=
  dest ++ e.1.drop src.length

/-- `if (/{{([^{}]+)}}/g.test(str)) return render(str, data); return str;`
(lines 123-128). -/
def processContent (C : Collab) (data : HbData) (c : List Char) : List Char :=
  if hasTemplate c then C.render c data else c

/-- One file job (lines 118-149): render-or-copy the content, `mkdirp` the
destination's parent, then write with flag `w` (overwrite) or `wx`
(fail with `EEXIST` when the destination exists, caught and turned into a
silent skip that reports no path). -/
def writeStep (ov : Bool) (C : Collab) (data : HbData) (src dest : Path)
    (fs : DFS) (e : Path × List Char) : DFS × Option Path :=
  let p := destOf src dest e
  let content := processContent C data e.2
  let fs1 := { fs with dirs := fun q => if q = dirnameP p then true else fs.dirs q }
  if ov then
    ({ fs1 with files := fun q => if q = p then some content else fs1.files q }, some p)
  else
    match fs1.files p with
    | some _ => (fs1, none)
    | none =>
      ({ fs1 with files := fun q => if q = p then some content else fs1.files q }, some p)

/-- Run every queued file job.  The source issues them concurrently with
`Promise.all`; each job touches only its own destination path, so the
sequential model observes the same final state and result list. -/
def runQueue (ov : Bool) (C : Collab) (data : HbData) (src dest : Path)
    (fs : DFS) : List (Path × List Char) → DFS × List (Option Path)
  | [] => (fs, [])
  | e :: rest =>
    let r := writeStep ov C data src dest fs e
    let rs := runQueue ov C data src dest r.1 rest
    (rs.1, r.2 :: rs.2)

/-- Model of `generate` (src/index.js lines 97-152): `mkdirp` the
destination root, enumerate the source tree with the `.git` filter, drop
files the binary classifier flags (line 109), run all file jobs, and
`_.compact` the per-job results into the list of written paths. -/
def generate (src dest : Path) (f : Forest) (data : HbData) (o : GenOpts)
    (C : Collab) (fs : DFS) : DFS × List Path :=
  let ov := o.overwrite.getD true
  let fs1 := mkdirpD dest fs
  let queue := (walkRoot src f).filter (fun e => !C.isBinary e.1)
  let r := runQueue ov C data src dest fs1 queue
  (r.1, r.2.reduceOption)

/-! ## Properties of the Path Resolver -/

theorem mem_joinHyphen {c : Char} : ∀ {ws : List (List Char)}, c ∈ joinHyphen ws →
    (∃ w ∈ ws, c ∈ w) ∨ c = '-'
  | [], h => by simp [joinHyphen] at h
  | [w], h => .inl ⟨w, by simp, h⟩
  | w :: w' :: ws, h => by
    rcases List.mem_append.1 h with h | h
    · exact .inl ⟨w, by simp, h⟩
    · rcases List.mem_cons.1 h with rfl | h
      · exact .inr rfl
      · rcases @mem_joinHyphen c (w' :: ws) h with ⟨u, hu, hc⟩ | h
        · exact .inl ⟨u, List.mem_cons_of_mem _ hu, hc⟩
        · exact .inr h

/-- Only alphanumeric characters ever enter a word. -/
theorem wordsAux_alnum : ∀ (s cur : List Char), (∀ c ∈ cur, isAlnumA c = true) →
    ∀ w ∈ wordsAux cur s, ∀ c ∈ w, isAlnumA c = true := by
  intro s
  induction s with
  | nil =>
    intro cur hcur w hw c hc
    by_cases he : cur.isEmpty <;> simp [wordsAux, he] at hw
    subst hw
    exact hcur c (List.mem_reverse.1 hc)
  | cons a rest ih =>
    intro cur hcur w hw c hc
    by_cases ha : isAlnumA a
    · match cur, hcur with
      | [], _ =>
        simp only [wordsAux, ha, if_true] at hw
        exact ih [a] (by simpa using ha) w hw c hc
      | p :: cs, hcur =>
        simp only [wordsAux, ha, if_true] at hw
        by_cases hb : wordBoundary p a <;> simp [hb] at hw
        · rcases hw with rfl | hw
          · refine hcur c ?_
            simp at hc ⊢
            tauto
          · exact ih [a] (by simpa using ha) w hw c hc
        · refine ih (a :: p :: cs) ?_ w hw c hc
          intro x hx
          rcases List.mem_cons.1 hx with rfl | hx
          · exact ha
          · exact hcur x hx
    · by_cases he : cur.isEmpty <;>
        simp only [wordsAux, ha, if_false, Bool.false_eq_true, he, if_true] at hw
      · exact ih [] (by simp) w hw c hc
      · simp at hw
        rcases hw with rfl | hw
        · exact hcur c (List.mem_reverse.1 hc)
        · exact ih [] (by simp) w hw c hc

theorem upper_toLowerA : ∀ c ∈ upperChars, isLowerA (toLowerA c) = true := by decide

theorem lower_toLowerA : ∀ c ∈ lowerChars, isLowerA (toLowerA c) = true := by decide

theorem digit_toLowerA : ∀ c ∈ digitChars, isDigitA (toLowerA c) = true := by decide

theorem alnum_toLowerA (c : Char) (h : isAlnumA c = true) :
    (isLowerA (toLowerA c) || isDigitA (toLowerA c)) = true := by
  simp only [isAlnumA, isUpperA, isLowerA, isDigitA, Bool.or_eq_true,
    decide_eq_true_eq] at h
  rcases h with (h | h) | h
  · simp [upper_toLowerA c h]
  · simp [lower_toLowerA c h]
  · simp [digit_toLowerA c h]

theorem kebabCase_chars (s : List Char) (c : Char) (hc : c ∈ kebabCase s) :
    (isLowerA c || isDigitA c || decide (c = '-')) = true := by
  unfold kebabCase at hc
  rcases mem_joinHyphen hc with ⟨w, hw, hcw⟩ | rfl
  · rcases List.mem_map.1 hw with ⟨w0, hw0, rfl⟩
    rcases List.mem_map.1 hcw with ⟨c0, hc0, rfl⟩
    have halnum := wordsAux_alnum s [] (by simp) w0 hw0 c0 hc0
    have h2 := alnum_toLowerA c0 halnum
    rcases Bool.or_eq_true_iff.1 h2 with h2 | h2 <;> simp [h2]
  · simp

/-- Claim C8: the Path Resolver is the pure function joining the kebab-case
slug of the locator under the cache root; every slug character is a
lowercase letter, a digit or a hyphen; and the locator `"My Repo!"` slugs to
`my-repo`. -/
theorem destPath_kebab_slug :
    (∀ cacheRoot url, destPath cacheRoot url = cachedirP cacheRoot ++ '/' :: kebabCase url) ∧
    (∀ s c, c ∈ kebabCase s → (isLowerA c || isDigitA c || decide (c = '-')) = true) ∧
    kebabCase "My Repo!".toList = "my-repo".toList :=
  ⟨fun _ _ => rfl, kebabCase_chars, by decide⟩

/-- Witness for C8 at the concrete slug character `m` of `my-repo`. -/
theorem destPath_kebab_slug_witness :
    (isLowerA 'm' || isDigitA 'm' || decide ('m' = '-')) = true :=
  destPath_kebab_slug.2.1 "My Repo!".toList 'm' (by decide)

/-! ## Properties of the Cache Manager (`download`) -/

theorem mkdirpM_eq_some {p : Path} {fs fs1 : FS} (h : mkdirpM p fs = some fs1) :
    fs1 = fun q => if q = p then some FsEntry.dir else fs q := by
  unfold mkdirpM at h
  split at h
  · cases h
  · exact (Option.some.inj h).symm

theorem download_offline_shape (cacheRoot : Path) (git : Git) (url : Path) (o : DlOpts)
    (fs : FS) (hoff : o.offline.getD false = true) :
    ((download cacheRoot git url o fs).1 = fs ∨
      (download cacheRoot git url o fs).1 =
        fun q => if q = cachedirP cacheRoot then some FsEntry.dir else fs q) ∧
    ((download cacheRoot git url o fs).2 = .error .noOfflineCache ∨
      (download cacheRoot git url o fs).2 = .ok (resolvedDest cacheRoot url o)) := by
  unfold download
  simp only [hoff]
  split
  · unfold downloadFallback
    simp
  · next fs1 h =>
    have hfs1 := mkdirpM_eq_some h
    subst hfs1
    split
    · simp
    · unfold downloadFallback
      simp

theorem download_offline_noCache (cacheRoot : Path) (git : Git) (url : Path) (o : DlOpts)
    (fs : FS) (hoff : o.offline.getD false = true)
    (hdest : fs (resolvedDest cacheRoot url o) = none)
    (hne : resolvedDest cacheRoot url o ≠ cachedirP cacheRoot) :
    (download cacheRoot git url o fs).2 = .error .noOfflineCache := by
  unfold download
  simp only [hoff]
  split
  · unfold downloadFallback
    simp
  · next fs1 h =>
    have hfs1 := mkdirpM_eq_some h
    subst hfs1
    have hd : downloadInner git (resolvedDest cacheRoot url o) (o.remote.getD "origin".toList)
        (o.branch.getD "master".toList)
        (fun q => if q = cachedirP cacheRoot then some FsEntry.dir else fs q) =
        some InnerErr.statMissing := by
      unfold downloadInner
      simp [hne, hdest]
    rw [hd]
    unfold downloadFallback
    simp

/-- Claim C2: with `offline:true`, a failed acquisition never touches the
filesystem outside the cache root, and with no prior cache directory at the
target, `download` rejects with the no-offline-cache error (the spec's
`AcquisitionError`). -/
theorem download_offline_safe (cacheRoot : Path) (git : Git) (url : Path) (o : DlOpts)
    (fs : FS) (hoff : o.offline.getD false = true) :
    (∀ e, (download cacheRoot git url o fs).2 = Except.error e →
      ∀ q, q ≠ cachedirP cacheRoot → (download cacheRoot git url o fs).1 q = fs q) ∧
    (fs (resolvedDest cacheRoot url o) = none →
      resolvedDest cacheRoot url o ≠ cachedirP cacheRoot →
      (download cacheRoot git url o fs).2 = Except.error DlErr.noOfflineCache) := by
  constructor
  · intro e _ q hq
    rcases (download_offline_shape cacheRoot git url o fs hoff).1 with h | h <;> rw [h]
    simp [hq]
  · intro hdest hne
    exact download_offline_noCache cacheRoot git url o fs hoff hdest hne

/-- Witness for C2: a concrete offline run over an empty filesystem rejects
with the no-cache error and leaves an unrelated path untouched. -/
theorem download_offline_safe_witness :
    (download "/c".toList ⟨fun _ _ _ => false, fun _ _ => false⟩ "u".toList
      {offline := some true} (fun _ => none)).1 "/x".toList = none ∧
    (download "/c".toList ⟨fun _ _ _ => false, fun _ _ => false⟩ "u".toList
      {offline := some true} (fun _ => none)).2 = Except.error DlErr.noOfflineCache := by
  have h := download_offline_safe "/c".toList ⟨fun _ _ _ => false, fun _ _ => false⟩
    "u".toList {offline := some true} (fun _ => none) (by decide)
  have herr := h.2 rfl (by decide)
  refine ⟨?_, herr⟩
  have := h.1 DlErr.noOfflineCache herr "/x".toList (by decide)
  simpa using this


theorem downloadFallback_offline (git : Git) (url d : Path) (fs : FS) :
    downloadFallback git url d true fs = (fs, .error .noOfflineCache) := by
  unfold downloadFallback
  simp

theorem downloadFallback_clone_ok (git : Git) (url d : Path) (fs : FS)
    (h : git.cloneOk url d = true) :
    (downloadFallback git url d false fs).2 = .ok d ∧
    (downloadFallback git url d false fs).1 d = some FsEntry.dir := by
  unfold downloadFallback
  simp [h]

theorem downloadFallback_clone_fail (git : Git) (url d : Path) (fs : FS)
    (h : git.cloneOk url d = false) :
    (downloadFallback git url d false fs).2 = .error .cloneFailed ∧
    (downloadFallback git url d false fs).1 d = none := by
  unfold downloadFallback
  simp [h, rimrafM]

/-- When a plain file occupies the resolved target, every route through
`download` ends in the catch-all fallback, run on the original filesystem or
on the filesystem with the cache root ensured; in both the target still
holds the file. -/
theorem download_file_to_fallback (cacheRoot : Path) (git : Git) (url : Path) (o : DlOpts)
    (fs : FS) (hfile : fs (resolvedDest cacheRoot url o) = some FsEntry.file) :
    ∃ fsX : FS,
      (∀ q, q ≠ cachedirP cacheRoot → fsX q = fs q) ∧
      fsX (resolvedDest cacheRoot url o) = some FsEntry.file ∧
      download cacheRoot git url o fs =
        downloadFallback git url (resolvedDest cacheRoot url o) (o.offline.getD false) fsX := by
  unfold download
  dsimp only
  split
  · exact ⟨fs, fun _ _ => rfl, hfile, rfl⟩
  · next fs1 h =>
    have hfs1 := mkdirpM_eq_some h
    subst hfs1
    by_cases hdq : resolvedDest cacheRoot url o = cachedirP cacheRoot
    · exfalso
      unfold mkdirpM at h
      rw [← hdq, hfile] at h
      cases h
    · have hd : downloadInner git (resolvedDest cacheRoot url o) (o.remote.getD "origin".toList)
          (o.branch.getD "master".toList)
          (fun q => if q = cachedirP cacheRoot then some FsEntry.dir else fs q) =
          some InnerErr.notADirectory := by
        unfold downloadInner
        simp [hdq, hfile]
      rw [hd]
      exact ⟨_, fun q hq => by simp [hq], by simp [hdq, hfile], rfl⟩

/-- Claim C1 (amended): when the resolved target exists but is a plain file,
the internal `File exists` error is caught by the fallback handler.  With
`offline:true` the call rejects with the no-cache error (`AcquisitionError`)
and mutates nothing outside the cache root; with `offline:false` it deletes
the file and attempts a clone, succeeding (the target becomes a directory)
or rejecting with the clone error (the target is gone). -/
theorem download_file_at_target (cacheRoot : Path) (git : Git) (url : Path) (o : DlOpts)
    (fs : FS) (hfile : fs (resolvedDest cacheRoot url o) = some FsEntry.file) :
    (o.offline.getD false = true →
      (download cacheRoot git url o fs).2 = Except.error DlErr.noOfflineCache ∧
      ∀ q, q ≠ cachedirP cacheRoot → (download cacheRoot git url o fs).1 q = fs q) ∧
    (o.offline.getD false = false →
      git.cloneOk url (resolvedDest cacheRoot url o) = true →
      (download cacheRoot git url o fs).2 = Except.ok (resolvedDest cacheRoot url o) ∧
      (download cacheRoot git url o fs).1 (resolvedDest cacheRoot url o) = some FsEntry.dir) ∧
    (o.offline.getD false = false →
      git.cloneOk url (resolvedDest cacheRoot url o) = false →
      (download cacheRoot git url o fs).2 = Except.error DlErr.cloneFailed ∧
      (download cacheRoot git url o fs).1 (resolvedDest cacheRoot url o) = none) := by
  obtain ⟨fsX, hout, _, heq⟩ := download_file_to_fallback cacheRoot git url o fs hfile
  refine ⟨fun hoff => ?_, fun hoff hc => ?_, fun hoff hc => ?_⟩
  · rw [heq, hoff, downloadFallback_offline]
    exact ⟨rfl, hout⟩
  · rw [heq, hoff]
    exact downloadFallback_clone_ok git url _ fsX hc
  · rw [heq, hoff]
    exact downloadFallback_clone_fail git url _ fsX hc

/-- Counterexample to claim C1 as stated: with a plain file at the resolved
target and `offline` left at its default `false`, `download` does not fail
before mutating — it deletes the file, clones, and resolves successfully
(the target is a directory afterwards). -/
theorem download_file_at_target_cex :
    (fun q => if q = destPath "/c".toList "repo".toList then some FsEntry.file else none : FS)
        (destPath "/c".toList "repo".toList) = some FsEntry.file ∧
    (download "/c".toList ⟨fun _ _ _ => false, fun _ _ => true⟩ "repo".toList {}
        (fun q => if q = destPath "/c".toList "repo".toList then some FsEntry.file else none)).2
      = Except.ok (destPath "/c".toList "repo".toList) ∧
    (download "/c".toList ⟨fun _ _ _ => false, fun _ _ => true⟩ "repo".toList {}
        (fun q => if q = destPath "/c".toList "repo".toList then some FsEntry.file else none)).1
        (destPath "/c".toList "repo".toList) = some FsEntry.dir :=
  ⟨rfl, rfl, rfl⟩

/-- Witness for the amended C1 at a concrete offline run. -/
theorem download_file_at_target_witness :
    (download "/c".toList ⟨fun _ _ _ => false, fun _ _ => true⟩ "repo".toList
        {offline := some true}
        (fun q => if q = destPath "/c".toList "repo".toList then some FsEntry.file else none)).2
      = Except.error DlErr.noOfflineCache ∧
    (download "/c".toList ⟨fun _ _ _ => false, fun _ _ => true⟩ "repo".toList
        {offline := some true}
        (fun q => if q = destPath "/c".toList "repo".toList then some FsEntry.file else none)).1
        "/y".toList = none := by
  have h := (download_file_at_target "/c".toList ⟨fun _ _ _ => false, fun _ _ => true⟩
    "repo".toList {offline := some true}
    (fun q => if q = destPath "/c".toList "repo".toList then some FsEntry.file else none)
    rfl).1 (by decide)
  refine ⟨h.1, ?_⟩
  have := h.2 "/y".toList (by decide)
  rw [this]
  decide


/-! ## Properties of the Render-or-Copy engine (`generate`) -/

theorem writeStep_res (ov : Bool) (C : Collab) (data : HbData) (src dest : Path)
    (fs : DFS) (e : Path × List Char) :
    (writeStep ov C data src dest fs e).2 = none ∨
    (writeStep ov C data src dest fs e).2 = some (destOf src dest e) := by
  unfold writeStep
  dsimp only
  split
  · exact .inr rfl
  · split
    · exact .inl rfl
    · exact .inr rfl

theorem writeStep_files_other (ov : Bool) (C : Collab) (data : HbData) (src dest : Path)
    (fs : DFS) (e : Path × List Char) (p : Path) (hp : p ≠ destOf src dest e) :
    (writeStep ov C data src dest fs e).1.files p = fs.files p := by
  unfold writeStep
  dsimp only
  split
  · simp [hp]
  · split
    · rfl
    · simp [hp]

theorem writeStep_isSome_mono (ov : Bool) (C : Collab) (data : HbData) (src dest : Path)
    (fs : DFS) (e : Path × List Char) (p : Path)
    (hp : (fs.files p).isSome = true) :
    ((writeStep ov C data src dest fs e).1.files p).isSome = true := by
  unfold writeStep
  dsimp only
  split
  · by_cases h : p = destOf src dest e <;> simp [h, hp]
  · split
    · exact hp
    · by_cases h : p = destOf src dest e <;> simp [h, hp]

theorem writeStep_dest_isSome (ov : Bool) (C : Collab) (data : HbData) (src dest : Path)
    (fs : DFS) (e : Path × List Char) :
    ((writeStep ov C data src dest fs e).1.files (destOf src dest e)).isSome = true := by
  unfold writeStep
  dsimp only
  split
  · simp
  · split
    · next h => simp [h]
    · simp

theorem writeStep_dirs_mono (ov : Bool) (C : Collab) (data : HbData) (src dest : Path)
    (fs : DFS) (e : Path × List Char) (p : Path) (hp : fs.dirs p = true) :
    (writeStep ov C data src dest fs e).1.dirs p = true := by
  unfold writeStep
  dsimp only
  split
  · by_cases h : p = dirnameP (destOf src dest e) <;> simp [h, hp]
  · split <;> (by_cases h : p = dirnameP (destOf src dest e) <;> simp [h, hp])

theorem runQueue_dirs_mono (ov : Bool) (C : Collab) (data : HbData) (src dest : Path) :
    ∀ (q : List (Path × List Char)) (fs : DFS) (p : Path), fs.dirs p = true →
      (runQueue ov C data src dest fs q).1.dirs p = true := by
  intro q
  induction q with
  | nil => intro fs p hp; exact hp
  | cons e rest ih =>
    intro fs p hp
    exact ih _ p (writeStep_dirs_mono ov C data src dest fs e p hp)

/-- Claim C10: after any `generate` run the destination root directory
exists, even when the source tree is empty and no file was written. -/
theorem generate_creates_dest_root (src dest : Path) (f : Forest) (data : HbData)
    (o : GenOpts) (C : Collab) (fs : DFS) :
    (generate src dest f data o C fs).1.dirs dest = true := by
  unfold generate
  dsimp only
  apply runQueue_dirs_mono
  simp [mkdirpD]

theorem runQueue_isSome_mono (ov : Bool) (C : Collab) (data : HbData) (src dest : Path) :
    ∀ (q : List (Path × List Char)) (fs : DFS) (p : Path),
      (fs.files p).isSome = true →
      ((runQueue ov C data src dest fs q).1.files p).isSome = true := by
  intro q
  induction q with
  | nil => intro fs p hp; exact hp
  | cons e rest ih =>
    intro fs p hp
    exact ih _ p (writeStep_isSome_mono ov C data src dest fs e p hp)

theorem runQueue_dest_isSome (ov : Bool) (C : Collab) (data : HbData) (src dest : Path) :
    ∀ (q : List (Path × List Char)) (fs : DFS) (e : Path × List Char), e ∈ q →
      ((runQueue ov C data src dest fs q).1.files (destOf src dest e)).isSome = true := by
  intro q
  induction q with
  | nil => intro fs e he; cases he
  | cons e' rest ih =>
    intro fs e he
    rcases List.mem_cons.1 he with rfl | he
    · exact runQueue_isSome_mono ov C data src dest rest _ _
        (writeStep_dest_isSome ov C data src dest fs e)
    · exact ih _ e he

/-- With overwrite disabled, a job whose destination already holds a file is
a pure skip: the file map is untouched and no path is reported. -/
theorem writeStep_skip (C : Collab) (data : HbData) (src dest : Path)
    (fs : DFS) (e : Path × List Char)
    (h : (fs.files (destOf src dest e)).isSome = true) :
    (writeStep false C data src dest fs e).1.files = fs.files ∧
    (writeStep false C data src dest fs e).2 = none := by
  refine ⟨?_, ?_⟩ <;>
    (unfold writeStep; dsimp only; simp only [Bool.false_eq_true, if_false]; split)
  · rfl
  · next hnone => rw [hnone] at h; cases h
  · rfl
  · next hnone => rw [hnone] at h; cases h

theorem runQueue_skip_all (C : Collab) (data : HbData) (src dest : Path) :
    ∀ (q : List (Path × List Char)) (fs : DFS),
      (∀ e ∈ q, (fs.files (destOf src dest e)).isSome = true) →
      (runQueue false C data src dest fs q).1.files = fs.files ∧
      (runQueue false C data src dest fs q).2 = q.map (fun _ => none) := by
  intro q
  induction q with
  | nil => intro fs _; exact ⟨rfl, rfl⟩
  | cons e rest ih =>
    intro fs hall
    have hstep := writeStep_skip C data src dest fs e (hall e (by simp))
    have hrest := ih (writeStep false C data src dest fs e).1 (by
      intro x hx
      rw [hstep.1]
      exact hall x (List.mem_cons_of_mem _ hx))
    constructor
    · show (runQueue false C data src dest
          (writeStep false C data src dest fs e).1 rest).1.files = fs.files
      rw [hrest.1, hstep.1]
    · show (writeStep false C data src dest fs e).2 ::
          (runQueue false C data src dest (writeStep false C data src dest fs e).1 rest).2 =
          (e :: rest).map (fun _ => none)
      rw [hstep.2, hrest.2]
      rfl


theorem generate_files_def (src dest : Path) (f : Forest) (data : HbData)
    (o : GenOpts) (C : Collab) (fs : DFS) :
    (generate src dest f data o C fs).1.files =
      (runQueue (o.overwrite.getD true) C data src dest (mkdirpD dest fs)
        ((walkRoot src f).filter (fun e => !C.isBinary e.1))).1.files := rfl

theorem generate_res_def (src dest : Path) (f : Forest) (data : HbData)
    (o : GenOpts) (C : Collab) (fs : DFS) :
    (generate src dest f data o C fs).2 =
      (runQueue (o.overwrite.getD true) C data src dest (mkdirpD dest fs)
        ((walkRoot src f).filter (fun e => !C.isBinary e.1))).2.reduceOption := rfl

theorem reduceOption_map_none {α β : Type} (l : List α) :
    (l.map (fun _ => (none : Option β))).reduceOption = [] := by
  induction l with
  | nil => rfl
  | cons a l ih => simpa using ih

/-- Claim C3: with `overwrite:false`, a second `generate` over the same
source and destination writes nothing, reports an empty list and leaves
every destination file exactly as the first call left it. -/
theorem generate_no_overwrite_idempotent (src dest : Path) (f : Forest) (data : HbData)
    (C : Collab) (fs : DFS) :
    (generate src dest f data ⟨some false⟩ C
        (generate src dest f data ⟨some false⟩ C fs).1).2 = [] ∧
    ∀ p, (generate src dest f data ⟨some false⟩ C
        (generate src dest f data ⟨some false⟩ C fs).1).1.files p =
      (generate src dest f data ⟨some false⟩ C fs).1.files p := by
  have hex : ∀ e ∈ (walkRoot src f).filter (fun e => !C.isBinary e.1),
      (((generate src dest f data ⟨some false⟩ C fs).1).files (destOf src dest e)).isSome
        = true := by
    intro e he
    rw [generate_files_def]
    exact runQueue_dest_isSome false C data src dest _ _ e he
  have h := runQueue_skip_all C data src dest
    ((walkRoot src f).filter (fun e => !C.isBinary e.1))
    (mkdirpD dest (generate src dest f data ⟨some false⟩ C fs).1) hex
  constructor
  · rw [generate_res_def]
    show (runQueue false C data src dest _ _).2.reduceOption = []
    rw [h.2, reduceOption_map_none]
  · intro p
    rw [generate_files_def]
    show (runQueue false C data src dest _ _).1.files p = _
    rw [h.1]
    rfl

theorem runQueue_untouched (ov : Bool) (C : Collab) (data : HbData) (src dest : Path) :
    ∀ (q : List (Path × List Char)) (fs : DFS) (p : Path),
      p ∉ q.map (destOf src dest) →
      (runQueue ov C data src dest fs q).1.files p = fs.files p := by
  intro q
  induction q with
  | nil => intro fs p _; rfl
  | cons e rest ih =>
    intro fs p hp
    have hne : p ≠ destOf src dest e := by
      intro hc; exact hp (by simp [hc])
    have hrest : p ∉ rest.map (destOf src dest) := by
      intro hc; exact hp (by simp; right; simpa using hc)
    show (runQueue ov C data src dest (writeStep ov C data src dest fs e).1 rest).1.files p = _
    rw [ih _ p hrest, writeStep_files_other ov C data src dest fs e p hne]

theorem writeStep_write (ov : Bool) (C : Collab) (data : HbData) (src dest : Path)
    (fs : DFS) (e : Path × List Char)
    (h : fs.files (destOf src dest e) = none) :
    (writeStep ov C data src dest fs e).1.files (destOf src dest e) =
      some (processContent C data e.2) := by
  unfold writeStep
  dsimp only
  split
  · simp
  · split
    · next hs => rw [h] at hs; cases hs
    · simp

theorem runQueue_fresh_write (ov : Bool) (C : Collab) (data : HbData) (src dest : Path) :
    ∀ (q : List (Path × List Char)) (fs : DFS) (e : Path × List Char),
      (q.map (destOf src dest)).Nodup → e ∈ q →
      fs.files (destOf src dest e) = none →
      (runQueue ov C data src dest fs q).1.files (destOf src dest e) =
        some (processContent C data e.2) := by
  intro q
  induction q with
  | nil => intro fs e _ he; cases he
  | cons e' rest ih =>
    intro fs e hnd he hfresh
    rw [List.map_cons] at hnd
    have hnd' := List.nodup_cons.1 hnd
    rcases List.mem_cons.1 he with rfl | he
    · show (runQueue ov C data src dest (writeStep ov C data src dest fs e).1 rest).1.files
          (destOf src dest e) = _
      rw [runQueue_untouched ov C data src dest rest _ _ hnd'.1]
      exact writeStep_write ov C data src dest fs e hfresh
    · have hmem : destOf src dest e ∈ rest.map (destOf src dest) :=
        List.mem_map_of_mem _ he
      have hne : destOf src dest e ≠ destOf src dest e' := by
        intro hc; rw [← hc] at hnd'; exact hnd'.1 hmem
      show (runQueue ov C data src dest (writeStep ov C data src dest fs e').1 rest).1.files
          (destOf src dest e) = _
      refine ih _ e hnd'.2 he ?_
      rw [writeStep_files_other ov C data src dest fs e' _ hne, hfresh]

theorem runQueue_res_sub (ov : Bool) (C : Collab) (data : HbData) (src dest : Path) :
    ∀ (q : List (Path × List Char)) (fs : DFS) (p : Path),
      p ∈ (runQueue ov C data src dest fs q).2.reduceOption →
      p ∈ q.map (destOf src dest) := by
  intro q
  induction q with
  | nil => intro fs p hp; cases hp
  | cons e rest ih =>
    intro fs p hp
    have hshow : (runQueue ov C data src dest fs (e :: rest)).2 =
        (writeStep ov C data src dest fs e).2 ::
        (runQueue ov C data src dest (writeStep ov C data src dest fs e).1 rest).2 := rfl
    rw [hshow] at hp
    rcases writeStep_res ov C data src dest fs e with hr | hr <;> rw [hr] at hp
    · rw [List.reduceOption_cons_of_none] at hp
      exact List.mem_cons_of_mem _ (ih _ p hp)
    · rw [List.reduceOption_cons_of_some] at hp
      rcases List.mem_cons.1 hp with rfl | hp
      · exact List.mem_cons_self _ _
      · exact List.mem_cons_of_mem _ (ih _ p hp)


/-- Claim C5: a non-binary source file without a template delimiter pair is
copied byte-identically to its destination path. -/
theorem generate_copies_verbatim (src dest : Path) (f : Forest) (data : HbData)
    (o : GenOpts) (C : Collab) (fs : DFS)
    (hnd : ((walkRoot src f).map (destOf src dest)).Nodup)
    (e : Path × List Char) (he : e ∈ walkRoot src f)
    (hbin : C.isBinary e.1 = false) (htmpl : hasTemplate e.2 = false)
    (hfresh : fs.files (destOf src dest e) = none) :
    (generate src dest f data o C fs).1.files (destOf src dest e) = some e.2 := by
  have hq : e ∈ (walkRoot src f).filter (fun x => !C.isBinary x.1) :=
    List.mem_filter.2 ⟨he, by simp [hbin]⟩
  have hnd' : (((walkRoot src f).filter (fun x => !C.isBinary x.1)).map
      (destOf src dest)).Nodup :=
    List.Nodup.sublist (List.Sublist.map _ (List.filter_sublist _)) hnd
  rw [generate_files_def]
  rw [runQueue_fresh_write (o.overwrite.getD true) C data src dest _ _ e hnd' hq
    (show (mkdirpD dest fs).files (destOf src dest e) = none from hfresh)]
  simp [processContent, htmpl]

/-- Witness for C5: a concrete plain file is copied unchanged. -/
theorem generate_copies_verbatim_witness :
    (generate "/s".toList "/d".toList
        (.cons (.file "a.txt".toList "plain text".toList) .nil) [] {}
        ⟨fun _ => false, hbRender⟩ ⟨fun _ => none, fun _ => false⟩).1.files
        (destOf "/s".toList "/d".toList ("/s/a.txt".toList, "plain text".toList)) =
      some "plain text".toList :=
  generate_copies_verbatim "/s".toList "/d".toList
    (.cons (.file "a.txt".toList "plain text".toList) .nil) [] {}
    ⟨fun _ => false, hbRender⟩ ⟨fun _ => none, fun _ => false⟩
    (by decide) ("/s/a.txt".toList, "plain text".toList) (by decide)
    (by decide) (by decide) rfl

/-- Claim C7: a file the extension classifier reports as binary is skipped
silently: its destination path is neither written nor reported, whatever its
content. -/
theorem generate_skips_binary (src dest : Path) (f : Forest) (data : HbData)
    (o : GenOpts) (C : Collab) (fs : DFS)
    (hnd : ((walkRoot src f).map (destOf src dest)).Nodup)
    (e : Path × List Char) (he : e ∈ walkRoot src f)
    (hbin : C.isBinary e.1 = true) :
    destOf src dest e ∉ (generate src dest f data o C fs).2 ∧
    (generate src dest f data o C fs).1.files (destOf src dest e) =
      fs.files (destOf src dest e) := by
  have hnotq : destOf src dest e ∉
      ((walkRoot src f).filter (fun x => !C.isBinary x.1)).map (destOf src dest) := by
    intro hc
    rcases List.mem_map.1 hc with ⟨e', he', heq⟩
    have he'w := List.mem_filter.1 he'
    have : e' = e := List.inj_on_of_nodup_map hnd he'w.1 he heq
    rw [this] at he'w
    rw [hbin] at he'w
    simpa using he'w.2
  constructor
  · intro hc
    rw [generate_res_def] at hc
    exact hnotq (runQueue_res_sub (o.overwrite.getD true) C data src dest _ _ _ hc)
  · rw [generate_files_def]
    rw [runQueue_untouched (o.overwrite.getD true) C data src dest _ _ _ hnotq]
    rfl

/-- Witness for C7: a concrete binary-classified file (delimiter-like bytes
in its content notwithstanding) is absent from the result and from the
destination. -/
theorem generate_skips_binary_witness :
    destOf "/s".toList "/d".toList ("/s/pic.png".toList, "x{{y}}".toList) ∉
      (generate "/s".toList "/d".toList
        (.cons (.file "pic.png".toList "x{{y}}".toList) .nil) [] {}
        ⟨fun p => decide (p = "/s/pic.png".toList), hbRender⟩
        ⟨fun _ => none, fun _ => false⟩).2 ∧
    (generate "/s".toList "/d".toList
        (.cons (.file "pic.png".toList "x{{y}}".toList) .nil) [] {}
        ⟨fun p => decide (p = "/s/pic.png".toList), hbRender⟩
        ⟨fun _ => none, fun _ => false⟩).1.files
        (destOf "/s".toList "/d".toList ("/s/pic.png".toList, "x{{y}}".toList)) = none :=
  generate_skips_binary "/s".toList "/d".toList
    (.cons (.file "pic.png".toList "x{{y}}".toList) .nil) [] {}
    ⟨fun p => decide (p = "/s/pic.png".toList), hbRender⟩
    ⟨fun _ => none, fun _ => false⟩
    (by decide) ("/s/pic.png".toList, "x{{y}}".toList) (by decide) (by decide)


/-- Claim C4: content holding a delimiter pair goes through the rendering
engine with the caller's data: a source file `Hello {{name}}` rendered with
`name = World` lands at the destination as `Hello World`. -/
theorem generate_renders_template :
    hasTemplate "Hello {{name}}".toList = true ∧
    (generate "/src".toList "/out".toList
        (.cons (.file "greeting.txt".toList "Hello {{name}}".toList) .nil)
        [("name".toList, "World".toList)] {} ⟨fun _ => false, hbRender⟩
        ⟨fun _ => none, fun _ => false⟩).1.files "/out/greeting.txt".toList
      = some "Hello World".toList ∧
    (generate "/src".toList "/out".toList
        (.cons (.file "greeting.txt".toList "Hello {{name}}".toList) .nil)
        [("name".toList, "World".toList)] {} ⟨fun _ => false, hbRender⟩
        ⟨fun _ => none, fun _ => false⟩).2 = ["/out/greeting.txt".toList] := by
  refine ⟨by decide, by decide, by decide⟩

/-- Claim C9: the template predicate needs at least one non-brace character
between the braces: a file whose only brace sequence is `{{}}` is not
classified as a template, and its content reaches the destination verbatim,
never passing through the rendering engine (a sentinel renderer is
demonstrably not consulted). -/
theorem empty_expression_not_template :
    hasTemplate "{{}}".toList = false ∧
    (generate "/src".toList "/out".toList
        (.cons (.file "f.txt".toList "{{}}".toList) .nil)
        [] {} ⟨fun _ => false, fun _ _ => "BOOM".toList⟩
        ⟨fun _ => none, fun _ => false⟩).1.files "/out/f.txt".toList
      = some "{{}}".toList := by
  refine ⟨by decide, by decide⟩


theorem notPrefix_git5 (n rest : List Char) (hmem : '/' ∉ n) (hne : n ≠ ".git".toList) :
    ¬ (".git/".toList <+: (n ++ '/' :: rest)) := by
  intro h
  rcases n with _ | ⟨a, _ | ⟨b, _ | ⟨c, _ | ⟨d, n4⟩⟩⟩⟩
  · simp [List.cons_prefix_cons] at h
  · simp [List.cons_prefix_cons] at h
  · simp [List.cons_prefix_cons] at h
  · simp [List.cons_prefix_cons] at h
  · rw [List.cons_append, List.cons_append, List.cons_append, List.cons_append] at h
    rw [show (".git/".toList) = '.' :: 'g' :: 'i' :: 't' :: '/' :: [] from rfl] at h
    rw [List.cons_prefix_cons] at h
    obtain ⟨ha, h⟩ := h
    rw [List.cons_prefix_cons] at h
    obtain ⟨hb, h⟩ := h
    rw [List.cons_prefix_cons] at h
    obtain ⟨hc, h⟩ := h
    rw [List.cons_prefix_cons] at h
    obtain ⟨hd, h⟩ := h
    subst ha hb hc hd
    rcases n4 with _ | ⟨x, n5⟩
    · exact hne rfl
    · rw [List.cons_append, List.cons_prefix_cons] at h
      obtain ⟨hx, _⟩ := h
      exact hmem (by rw [hx]; simp)

theorem notInfix_run (rest : List Char) : ∀ (n : List Char), '/' ∉ n →
    ¬ ("/.git/".toList <:+: ('/' :: rest)) →
    ¬ ("/.git/".toList <:+: (n ++ '/' :: rest)) := by
  intro n
  induction n with
  | nil => intro _ h; simpa using h
  | cons c n' ih =>
    intro hmem h hinf
    rw [List.cons_append] at hinf
    rcases List.infix_cons_iff.1 hinf with hpre | hinf'
    · have hc := (List.cons_prefix_cons.1 hpre).1
      exact hmem (by rw [← hc]; exact List.mem_cons_self _ _)
    · exact ih (fun hm => hmem (List.mem_cons_of_mem _ hm)) h hinf'

theorem notInfix_consDir (n rest : List Char) (hmem : '/' ∉ n) (hne : n ≠ ".git".toList)
    (h : ¬ ("/.git/".toList <:+: ('/' :: rest))) :
    ¬ ("/.git/".toList <:+: ('/' :: (n ++ '/' :: rest))) := by
  intro hinf
  rcases List.infix_cons_iff.1 hinf with hpre | hinf'
  · exact notPrefix_git5 n rest hmem hne (List.cons_prefix_cons.1 hpre).2
  · exact notInfix_run rest n hmem h hinf'

theorem notInfix_file (n : List Char) (hmem : '/' ∉ n) :
    ¬ ("/.git/".toList <:+: ('/' :: n)) := by
  intro hinf
  rcases List.infix_cons_iff.1 hinf with hpre | hinf'
  · exact hmem ((List.cons_prefix_cons.1 hpre).2.subset (by decide))
  · exact hmem (hinf'.subset (by decide))

mutual

theorem walkT_no_git : ∀ (A : Path) (t : Tree), wfT t = true →
    ∀ e ∈ walkT A t, ∃ rel, e.1 = A ++ '/' :: rel ∧
      ¬ ("/.git/".toList <:+: ('/' :: rel))
  | A, .file n c, hw => by
    intro e he
    rw [show walkT A (.file n c) = [(A ++ '/' :: n, c)] from rfl] at he
    have hmem : '/' ∉ n := by
      rw [show wfT (.file n c) = !n.contains '/' from rfl] at hw
      simp at hw
      exact hw
    rcases List.mem_singleton.1 he with rfl
    exact ⟨n, rfl, notInfix_file n hmem⟩
  | A, .dir n f, hw => by
    intro e he
    have hw' : (!n.contains '/') = true ∧ wfF f = true := by
      rw [show wfT (.dir n f) = (!n.contains '/' && wfF f) from rfl,
        Bool.and_eq_true] at hw
      exact hw
    have hmem : '/' ∉ n := by
      have h2 := hw'.1
      simp at h2
      exact h2
    rw [show walkT A (.dir n f) =
        (if gitSuffix.isSuffixOf (A ++ '/' :: n) then []
         else walkF (A ++ '/' :: n) f) from rfl] at he
    by_cases hs : gitSuffix.isSuffixOf (A ++ '/' :: n)
    · rw [if_pos hs] at he
      cases he
    · rw [if_neg hs] at he
      obtain ⟨rel', hrel', hok'⟩ :=
        walkF_no_git (A ++ '/' :: n) f hw'.2 e he
      refine ⟨n ++ '/' :: rel', ?_, ?_⟩
      · rw [hrel']
        simp
      · refine notInfix_consDir n rel' hmem ?_ hok'
        intro hc
        apply hs
        rw [hc, List.isSuffixOf_iff_suffix]
        exact ⟨A ++ ['/'], by simp [gitSuffix]⟩

theorem walkF_no_git : ∀ (A : Path) (f : Forest), wfF f = true →
    ∀ e ∈ walkF A f, ∃ rel, e.1 = A ++ '/' :: rel ∧
      ¬ ("/.git/".toList <:+: ('/' :: rel))
  | _, .nil, _ => by
    intro e he
    cases he
  | A, .cons t f', hw => by
    intro e he
    have hw' : wfT t = true ∧ wfF f' = true := by
      rw [show wfF (.cons t f') = (wfT t && wfF f') from rfl, Bool.and_eq_true] at hw
      exact hw
    rw [show walkF A (.cons t f') = walkT A t ++ walkF A f' from rfl] at he
    rcases List.mem_append.1 he with he | he
    · exact walkT_no_git A t hw'.1 e he
    · exact walkF_no_git A f' hw'.2 e he

end

/-- Claim C6: no file below a directory named `.git`, at any nesting depth,
is enumerated by the walker or written to the destination: every emitted
source path is the source root followed by a relative path free of any
`/.git/` segment, and every written destination path is the destination
root followed by such a relative path. -/
theorem walk_prunes_git_dirs (src dest : Path) (f : Forest) (data : HbData)
    (o : GenOpts) (C : Collab) (fs : DFS) (hwf : wfF f = true) :
    (∀ e ∈ walkRoot src f, ∃ rel, e.1 = src ++ '/' :: rel ∧
      ¬ ("/.git/".toList <:+: ('/' :: rel))) ∧
    (∀ p ∈ (generate src dest f data o C fs).2, ∃ rel, p = dest ++ '/' :: rel ∧
      ¬ ("/.git/".toList <:+: ('/' :: rel))) := by
  have hwalk : ∀ e ∈ walkRoot src f, ∃ rel, e.1 = src ++ '/' :: rel ∧
      ¬ ("/.git/".toList <:+: ('/' :: rel)) := by
    intro e he
    unfold walkRoot at he
    split at he
    · cases he
    · exact walkF_no_git src f hwf e he
  refine ⟨hwalk, ?_⟩
  intro p hp
  rw [generate_res_def] at hp
  have hq := runQueue_res_sub (o.overwrite.getD true) C data src dest _ _ _ hp
  rcases List.mem_map.1 hq with ⟨e, he, rfl⟩
  obtain ⟨rel, hrel, hok⟩ := hwalk e (List.mem_filter.1 he).1
  refine ⟨rel, ?_, hok⟩
  unfold destOf
  rw [hrel, show src ++ '/' :: rel = src ++ ('/' :: rel) from rfl, List.drop_left]

/-- Witness for C6: in a tree with a nested `.git` directory, the surviving
sibling file is emitted with a `.git`-free relative path. -/
theorem walk_prunes_git_dirs_witness :
    ∃ rel, ("/s/sub/ok.txt".toList, "hi".toList).1 = "/s".toList ++ '/' :: rel ∧
      ¬ ("/.git/".toList <:+: ('/' :: rel)) :=
  (walk_prunes_git_dirs "/s".toList "/d".toList
    (.cons (.dir "sub".toList
      (.cons (.dir ".git".toList (.cons (.file "x".toList "c".toList) .nil))
        (.cons (.file "ok.txt".toList "hi".toList) .nil))) .nil)
    [] {} ⟨fun _ => false, hbRender⟩ ⟨fun _ => none, fun _ => false⟩
    (by decide)).1 ("/s/sub/ok.txt".toList, "hi".toList) (by decide)

end Egad
